import Mathlib

/-!
Shallow embedding of `src/env_archaeologist.py`.

The tool scans a directory tree for textual references to environment
variables, aggregates them per file and globally, cross-references the
global set against the process environment and prints a report.

File contents are modelled as `List Char` (Python `str` after decoding),
the four regular expressions of `ENV_PATTERNS` are modelled as explicit
matchers with `re.findall` scanning semantics (`re.IGNORECASE` is
reflected by case-insensitive literal comparison and by accepting both
letter cases in the character classes), and the filesystem is modelled as
a list of entries as produced by `Path.rglob`.
-/

/-- A quote character accepted by the regex character class `["\']`:
`"` or `'` (codepoint 39). -/
def isQuote (c : Char) : Bool := c == '"' || c == Char.ofNat 39

/-- The character class `[A-Z_]` under `re.IGNORECASE`: an ASCII letter or
underscore. -/
def identStart (c : Char) : Bool := c.isAlpha || c == '_'

/-- The character class `[A-Z0-9_]` under `re.IGNORECASE`: an ASCII letter,
digit or underscore. -/
def identChar (c : Char) : Bool := c.isAlphanum || c == '_'

/-- Match a literal pattern case-insensitively (`re.IGNORECASE`) at the head
of the input, returning the remaining input on success. -/
def stripCI : List Char → List Char → Option (List Char)
  | [], l => some l
  | _ :: _, [] => none
  | p :: ps, c :: cs => if c.toLower == p.toLower then stripCI ps cs else none

/-- One match attempt, at the head of the input, of the regex
`os\.getenv\(["\']([^"\']+)["\']\)` (first entry of `ENV_PATTERNS`).
Returns the capture of group 1 and the input following the match. -/
def matchGetenv (l : List Char) : Option (String × List Char) :=
  match stripCI "os.getenv(".data l with
  | none => none
  | some r1 =>
    match r1 with
    | [] => none
    | q :: r2 =>
      if isQuote q then
        let nm := List.takeWhile (fun c => !(isQuote c)) r2
        let r3 := List.dropWhile (fun c => !(isQuote c)) r2
        if nm.isEmpty then none
        else
          match r3 with
          | q2 :: ')' :: r4 => if isQuote q2 then some (String.mk nm, r4) else none
          | _ => none
      else none

/-- One match attempt, at the head of the input, of the regex
`os\.environ\[?["\']([^"\']+)["\']\]?` (second entry of `ENV_PATTERNS`). -/
def matchEnviron (l : List Char) : Option (String × List Char) :=
  match stripCI "os.environ".data l with
  | none => none
  | some r0 =>
    let r1 := if r0.head? == some '[' then r0.tail else r0
    match r1 with
    | [] => none
    | q :: r2 =>
      if isQuote q then
        let nm := List.takeWhile (fun c => !(isQuote c)) r2
        let r3 := List.dropWhile (fun c => !(isQuote c)) r2
        if nm.isEmpty then none
        else
          match r3 with
          | q2 :: r4 =>
            if isQuote q2 then
              some (String.mk nm, if r4.head? == some ']' then r4.tail else r4)
            else none
          | [] => none
      else none

/-- One match attempt, at the head of the input, of the regex
`\$\{?([A-Z_][A-Z0-9_]*)\}?` (third entry of `ENV_PATTERNS`). -/
def matchShell (l : List Char) : Option (String × List Char) :=
  match l with
  | '$' :: r0 =>
    let r1 := if r0.head? == some '{' then r0.tail else r0
    match r1 with
    | [] => none
    | c :: cs =>
      if identStart c then
        let ids := List.takeWhile identChar cs
        let rem := List.dropWhile identChar cs
        some (String.mk (c :: ids), if rem.head? == some '}' then rem.tail else rem)
      else none
  | _ => none

/-- One match attempt, at the head of the input, of the regex
`process\.env\.([A-Z_][A-Z0-9_]*)` (fourth entry of `ENV_PATTERNS`). -/
def matchNode (l : List Char) : Option (String × List Char) :=
  match stripCI "process.env.".data l with
  | none => none
  | some r1 =>
    match r1 with
    | [] => none
    | c :: cs =>
      if identStart c then
        some (String.mk (c :: List.takeWhile identChar cs), List.dropWhile identChar cs)
      else none

/-- `re.findall` scanning: attempt a match at every position, left to right,
skipping over each successful match; fuelled formulation. -/
def scanFuel (m : List Char → Option (String × List Char)) : Nat → List Char → List String
  | _, [] => []
  | 0, _ :: _ => []
  | fuel + 1, c :: cs =>
    match m (c :: cs) with
    | some (n, r) => n :: scanFuel m fuel r
    | none => scanFuel m fuel cs

/-- `re.findall pattern content`: all group-1 captures, in match order. -/
def findAll (m : List Char → Option (String × List Char)) (l : List Char) : List String :=
  scanFuel m l.length l

/-- A matcher consumes at least one character on success. -/
def Consumes (m : List Char → Option (String × List Char)) : Prop :=
  ∀ l n r, m l = some (n, r) → r.length < l.length

theorem stripCI_length {p l r : List Char} (h : stripCI p l = some r) :
    r.length + p.length = l.length := by
  induction p generalizing l with
  | nil => simp [stripCI] at h; simp [h]
  | cons x xs ih =>
    cases l with
    | nil => simp [stripCI] at h
    | cons c cs =>
      simp only [stripCI] at h
      split at h
      · have := ih h
        simp only [List.length_cons]
        omega
      · exact absurd h (by simp)

theorem matchGetenv_consumes : Consumes matchGetenv := by
  intro l n r h
  simp only [matchGetenv] at h
  split at h
  · exact absurd h (by simp)
  · next r1 hstrip =>
    have hlen := stripCI_length hstrip
    have h10 : ("os.getenv(".data).length = 10 := rfl
    rw [h10] at hlen
    cases r1 with
    | nil => exact absurd h (by simp)
    | cons q r2 =>
      simp only at h
      split at h
      · split at h
        · exact absurd h (by simp)
        · split at h
          · next q2 r4 heq =>
            split at h
            · have hsub : (List.dropWhile (fun c => !(isQuote c)) r2).length ≤ r2.length :=
                (List.dropWhile_sublist _).length_le
              rw [heq] at hsub
              simp only [Option.some.injEq, Prod.mk.injEq] at h
              obtain ⟨-, hr⟩ := h
              subst hr
              simp only [List.length_cons] at hsub hlen
              omega
            · exact absurd h (by simp)
          · exact absurd h (by simp)
      · exact absurd h (by simp)

theorem matchEnviron_consumes : Consumes matchEnviron := by
  intro l n r h
  simp only [matchEnviron] at h
  split at h
  · exact absurd h (by simp)
  · next r0 hstrip =>
    have hlen := stripCI_length hstrip
    have h10 : ("os.environ".data).length = 10 := rfl
    rw [h10] at hlen
    have htail : (if r0.head? == some '[' then r0.tail else r0).length ≤ r0.length := by
      split
      · exact (List.tail_sublist r0).length_le
      · exact le_refl _
    set r1 := if r0.head? == some '[' then r0.tail else r0 with hr1
    cases hc : r1 with
    | nil => rw [hc] at h; exact absurd h (by simp)
    | cons q r2 =>
      rw [hc] at h
      simp only at h
      split at h
      · split at h
        · exact absurd h (by simp)
        · split at h
          · next q2 r4 heq =>
            split at h
            · have hsub : (List.dropWhile (fun c => !(isQuote c)) r2).length ≤ r2.length :=
                (List.dropWhile_sublist _).length_le
              rw [heq] at hsub
              have htail2 : (if r4.head? == some ']' then r4.tail else r4).length ≤ r4.length := by
                split
                · exact (List.tail_sublist r4).length_le
                · exact le_refl _
              simp only [Option.some.injEq, Prod.mk.injEq] at h
              obtain ⟨-, hr⟩ := h
              subst hr
              have hc' : r1.length = r2.length + 1 := by rw [hc]; simp
              simp only [List.length_cons] at hsub
              omega
            · exact absurd h (by simp)
          · exact absurd h (by simp)
      · exact absurd h (by simp)

theorem matchShell_consumes : Consumes matchShell := by
  intro l n r h
  simp only [matchShell] at h
  split at h
  · next r0 =>
    have htail : (if r0.head? == some '{' then r0.tail else r0).length ≤ r0.length := by
      split
      · exact (List.tail_sublist r0).length_le
      · exact le_refl _
    set r1 := if r0.head? == some '{' then r0.tail else r0 with hr1
    cases hc : r1 with
    | nil => rw [hc] at h; exact absurd h (by simp)
    | cons c cs =>
      rw [hc] at h
      simp only at h
      split at h
      · have hsub : (List.dropWhile identChar cs).length ≤ cs.length :=
          (List.dropWhile_sublist _).length_le
        set rem := List.dropWhile identChar cs with hrem
        have htail2 : (if rem.head? == some '}' then rem.tail else rem).length ≤ rem.length := by
          split
          · exact (List.tail_sublist rem).length_le
          · exact le_refl _
        simp only [Option.some.injEq, Prod.mk.injEq] at h
        obtain ⟨-, hr⟩ := h
        subst hr
        have hc' : r1.length = cs.length + 1 := by rw [hc]; simp
        simp only [List.length_cons]
        omega
      · exact absurd h (by simp)
  · exact absurd h (by simp)

theorem matchNode_consumes : Consumes matchNode := by
  intro l n r h
  simp only [matchNode] at h
  split at h
  · exact absurd h (by simp)
  · next r1 hstrip =>
    have hlen := stripCI_length hstrip
    have h12 : ("process.env.".data).length = 12 := rfl
    rw [h12] at hlen
    cases r1 with
    | nil => exact absurd h (by simp)
    | cons c cs =>
      simp only at h
      split at h
      · have hsub : (List.dropWhile identChar cs).length ≤ cs.length :=
          (List.dropWhile_sublist _).length_le
        simp only [Option.some.injEq, Prod.mk.injEq] at h
        obtain ⟨-, hr⟩ := h
        subst hr
        simp only [List.length_cons] at hlen ⊢
        omega
      · exact absurd h (by simp)

theorem consumes_nil_none {m : List Char → Option (String × List Char)}
    (hm : Consumes m) : m [] = none := by
  cases hmi : m [] with
  | none => rfl
  | some p => exact absurd (hm [] p.1 p.2 (by rw [hmi])) (by simp)

theorem scanFuel_congr {m : List Char → Option (String × List Char)} (hm : Consumes m) :
    ∀ (f1 f2 : Nat) (l : List Char), l.length ≤ f1 → l.length ≤ f2 →
      scanFuel m f1 l = scanFuel m f2 l := by
  intro f1
  induction f1 with
  | zero =>
    intro f2 l h1 _
    have : l = [] := by
      cases l with
      | nil => rfl
      | cons c cs => simp at h1
    subst this
    cases f2 <;> rfl
  | succ f ih =>
    intro f2 l h1 h2
    cases l with
    | nil => cases f2 <;> rfl
    | cons c cs =>
      cases f2 with
      | zero => simp at h2
      | succ f2' =>
        simp only [scanFuel]
        cases hmi : m (c :: cs) with
        | none =>
          exact ih f2' cs (by simp at h1; omega) (by simp at h2; omega)
        | some p =>
          have hlt := hm _ p.1 p.2 hmi
          simp only [List.length_cons] at hlt h1 h2
          exact congrArg (p.1 :: ·) (ih f2' p.2 (by omega) (by omega))

theorem findAll_cons {m : List Char → Option (String × List Char)} (hm : Consumes m)
    (c : Char) (cs : List Char) :
    findAll m (c :: cs) =
      match m (c :: cs) with
      | some (n, r) => n :: findAll m r
      | none => findAll m cs := by
  simp only [findAll, List.length_cons, scanFuel]
  cases hmi : m (c :: cs) with
  | none => exact scanFuel_congr hm cs.length cs.length.succ cs (le_refl _) (by omega) |>.symm ▸
      (scanFuel_congr hm cs.length cs.length cs (le_refl _) (le_refl _))
  | some p =>
    have hlt := hm _ p.1 p.2 hmi
    simp only [List.length_cons] at hlt
    exact congrArg (p.1 :: ·) (scanFuel_congr hm cs.length p.2.length p.2 (by omega) (le_refl _))

theorem findAll_ne_nil {m : List Char → Option (String × List Char)} (hm : Consumes m)
    {l s : List Char} (hsub : ∃ t, t ++ s = l) (hmatch : m s ≠ none) :
    findAll m l ≠ [] := by
  obtain ⟨t, ht⟩ := hsub
  induction t generalizing l with
  | nil =>
    simp only [List.nil_append] at ht
    subst ht
    cases s with
    | nil => exact absurd (consumes_nil_none hm) hmatch
    | cons c cs =>
      rw [findAll_cons hm]
      cases hmi : m (c :: cs) with
      | none => exact absurd hmi hmatch
      | some p => simp
  | cons x xs ih =>
    subst ht
    rw [List.cons_append, findAll_cons hm]
    cases hmi : m (x :: (xs ++ s)) with
    | none => exact ih rfl
    | some p => simp

/-- Outcome of `open(filepath).read()` inside `find_env_vars_in_file`: the
decoded text, or one of the two exceptions the function catches. -/
inductive ReadOutcome where
  | ok (text : List Char)
  | unicodeDecodeError
  | permissionError
deriving DecidableEq

/-- The loop body of `find_env_vars_in_file` over decoded content: union of
`re.findall(pattern, content, re.IGNORECASE)` over the four `ENV_PATTERNS`,
deduplicated into a set. -/
def extractVars (text : List Char) : Finset String :=
  (findAll matchGetenv text ++ findAll matchEnviron text ++
    findAll matchShell text ++ findAll matchNode text).toFinset

/-- `find_env_vars_in_file`: the two caught exceptions yield the empty set. -/
def find_env_vars_in_file : ReadOutcome → Finset String
  | .ok text => extractVars text
  | .unicodeDecodeError => ∅
  | .permissionError => ∅

/-- One entry yielded by `target_dir.rglob('*')`: its path components
relative to the root, whether it is a regular file, and what reading it
would produce. -/
structure FSEntry where
  comps : List String
  isFile : Bool
  content : ReadOutcome
deriving DecidableEq

/-- Join path components with `/`, as `str` of a `pathlib` path does. -/
def joinComps : List String → List Char
  | [] => []
  | [x] => x.data
  | x :: y :: rest => x.data ++ '/' :: joinComps (y :: rest)

/-- `str(filepath.relative_to(target_dir))`. -/
def relChars (e : FSEntry) : List Char := joinComps e.comps

def relString (e : FSEntry) : String := String.mk (relChars e)

/-- `str(filepath)`: the root argument joined with the relative path. -/
def pathChars (root : String) (e : FSEntry) : List Char :=
  root.data ++ '/' :: relChars e

/-- Index of the last `.` in a file name, if any. -/
def lastDotIdx (name : List Char) : Option Nat :=
  (name.reverse.findIdx? (fun c => c == '.')).map (fun j => name.length - 1 - j)

/-- `pathlib.PurePath.suffix` on a file name: the part from the last dot,
empty when the dot is leading, trailing or absent. -/
def pySuffix (name : List Char) : List Char :=
  match lastDotIdx name with
  | none => []
  | some i => if 0 < i ∧ i < name.length - 1 then name.drop i else []

/-- `filepath.name`: the final path component. -/
def lastName (e : FSEntry) : String := e.comps.getLastD ""

/-- `filepath.suffix`. -/
def fileSuffix (e : FSEntry) : List Char := pySuffix (lastName e).data

/-- `skip_dirs` in `main`. -/
def skipDirs : List String := ["__pycache__", ".git", "node_modules", "venv", ".venv", "env"]

/-- The extension allow-list in `main`. -/
def allowedSuffixes : List String := [".py", ".js", ".ts", ".sh", ".env", ".yml", ".yaml"]

/-- The filter in `main`'s loop:
`filepath.is_file() and not any(skip in str(filepath) for skip in skip_dirs)`
followed by `filepath.suffix in {...}`.  Note the `skip in str(filepath)`
test is a substring test on the full path string, root included. -/
def codeCandidate (root : String) (e : FSEntry) : Bool :=
  e.isFile && !(skipDirs.any (fun s => decide (s.data <:+: pathChars root e))) &&
    allowedSuffixes.any (fun s => fileSuffix e == s.data)

/-- `sorted(...)` of a Python set of strings. -/
def sortedVars (s : Finset String) : List String := s.sort (· ≤ ·)

/-- The `env_vars_by_file` mapping built by `main`'s loop, in iteration
order: relative path → sorted list of found variables; files with an empty
match set are never inserted. -/
def reportEntries (root : String) (fs : List FSEntry) : List (String × List String) :=
  fs.filterMap (fun e =>
    if codeCandidate root e then
      let found := find_env_vars_in_file e.content
      if found = ∅ then none else some (relString e, sortedVars found)
    else none)

/-- The keys of `env_vars_by_file`. -/
def reportKeys (root : String) (fs : List FSEntry) : List String :=
  (reportEntries root fs).map Prod.fst

/-- The `all_env_vars` set built by `main`'s loop. -/
def allEnvVars (root : String) (fs : List FSEntry) : Finset String :=
  fs.foldl (fun acc e =>
    if codeCandidate root e then
      let found := find_env_vars_in_file e.content
      if found = ∅ then acc else acc ∪ found
    else acc) ∅

/-- The keys of the `os.environ` snapshot. -/
def envKeys (env : List (String × String)) : List String := env.map Prod.fst

/-- `set_vars = [var for var in all_env_vars if var in os.environ]`, as the
set of its elements (only its sorted form and its set are ever used). -/
def setVars (allVars : Finset String) (env : List (String × String)) : Finset String :=
  allVars.filter (fun v => (envKeys env).contains v)

/-- `missing = all_env_vars - set(set_vars)`. -/
def missingVars (allVars : Finset String) (env : List (String × String)) : Finset String :=
  allVars \ setVars allVars env

/-- `print("=" * 60)`. -/
def eqLine : String := String.mk (List.replicate 60 '=')

/-- The comparison used by `sorted(env_vars_by_file.items())`, restricted to
its first component (the keys are pairwise distinct relative paths). -/
def pairLe (p q : String × List String) : Bool := decide (p.1 ≤ q.1)

/-- `sorted(env_vars_by_file.items())`. -/
def sortedEntries (entries : List (String × List String)) : List (String × List String) :=
  entries.mergeSort pairLe

def usage1 : String := "Usage: python env_archaeologist.py <directory>"

def usage2 : String := "Example: python env_archaeologist.py ."

def notFoundMsg (d : String) : String :=
  "Directory \x27" ++ d ++ "\x27 not found. Did you check under the couch?"

/-- The sequence of `print(...)` arguments emitted by `main` after the scan
loop, as a function of the per-file mapping, the global set and the
environment snapshot. -/
def renderOut (entries : List (String × List String)) (allVars : Finset String)
    (env : List (String × String)) : List String :=
  let sVars := setVars allVars env
  let miss := missingVars allVars env
  ["\n🔍 Found " ++ toString allVars.card ++ " unique environment variables in " ++
      toString entries.length ++ " files:",
    eqLine]
  ++ ((sortedEntries entries).map
      (fun p => ("\n📄 " ++ p.1 ++ ":") :: p.2.map (fun v => "  • " ++ v))).flatten
  ++ ["\n📋 All unique variables (alphabetical, because we\x27re civilized):"]
  ++ (sortedVars allVars).map (fun v => "  " ++ v)
  ++ ["\n🔧 Currently set in your environment (the ones that actually work):"]
  ++ (sortedVars sVars).map (fun v => "  ✓ " ++ v)
  ++ (if miss = ∅ then []
      else ("\n⚠️  Not set (the ones that will break in production):") ::
        (sortedVars miss).map (fun v => "  ✗ " ++ v))

/-- All standard output of a completed scan of `root`. -/
def outputLines (root : String) (fs : List FSEntry) (env : List (String × String)) :
    List String :=
  renderOut (reportEntries root fs) (allEnvVars root fs) env

/-- `main`: argument check, existence check, then scan and report.  The
first component is the process exit status, the second the sequence of
printed lines. -/
def mainRun (argv : List String) (dirExists : String → Bool) (fs : List FSEntry)
    (env : List (String × String)) : Nat × List String :=
  if argv.length < 2 then (1, [usage1, usage2])
  else
    let root := argv.getD 1 ""
    if !(dirExists root) then (1, [notFoundMsg root])
    else (0, outputLines root fs env)

example : extractVars ("os.getenv(\"FOO\")".data) = {"FOO"} := by decide
example : extractVars ("os.environ.get(\"NAME\")".data) = ∅ := by decide
example : extractVars ("x = os.environ[\"HOME\"] + y".data) = {"HOME"} := by decide
example : extractVars ("a ${BAR} b $BAR c".data) = {"BAR"} := by decide
example : extractVars ("url = process.env.API_URL".data) = {"API_URL"} := by decide
example : extractVars ("OS.GETENV(\"Mixed_case\")".data) = {"Mixed_case"} := by decide
example : fileSuffix ⟨["a", "b.py"], true, .ok []⟩ = ".py".data := by decide
example : fileSuffix ⟨[".env"], true, .ok []⟩ = [] := by decide
example : codeCandidate "proj" ⟨["environment.py"], true, .ok []⟩ = false := by decide
example : codeCandidate "proj" ⟨["app.py"], true, .ok []⟩ = true := by decide

theorem allEnvVarsAux_mem (root : String) (fs : List FSEntry) (acc : Finset String)
    (v : String) :
    v ∈ fs.foldl (fun acc e =>
        if codeCandidate root e then
          let found := find_env_vars_in_file e.content
          if found = ∅ then acc else acc ∪ found
        else acc) acc ↔
      v ∈ acc ∨ ∃ e ∈ fs, codeCandidate root e = true ∧ v ∈ find_env_vars_in_file e.content := by
  induction fs generalizing acc with
  | nil => simp
  | cons x xs ih =>
    simp only [List.foldl_cons, ih, List.mem_cons]
    by_cases hc : codeCandidate root x
    · by_cases hf : find_env_vars_in_file x.content = ∅
      · simp only [hc, if_true, hf]
        constructor
        · rintro (h | h)
          · exact Or.inl h
          · exact Or.inr ⟨h.choose, ⟨Or.inr h.choose_spec.1, h.choose_spec.2⟩⟩
        · rintro (h | ⟨e, he | he, hec, hee⟩)
          · exact Or.inl h
          · subst he
            rw [hf] at hee
            exact absurd hee (Finset.not_mem_empty v)
          · exact Or.inr ⟨e, he, hec, hee⟩
      · simp only [hc, if_true, hf, if_false, Finset.mem_union]
        constructor
        · rintro ((h | h) | h)
          · exact Or.inl h
          · exact Or.inr ⟨x, Or.inl rfl, hc, h⟩
          · exact Or.inr ⟨h.choose, Or.inr h.choose_spec.1, h.choose_spec.2⟩
        · rintro (h | ⟨e, he | he, hec, hee⟩)
          · exact Or.inl (Or.inl h)
          · subst he
            exact Or.inl (Or.inr hee)
          · exact Or.inr ⟨e, he, hec, hee⟩
    · simp only [hc, if_false]
      constructor
      · rintro (h | h)
        · exact Or.inl h
        · exact Or.inr ⟨h.choose, Or.inr h.choose_spec.1, h.choose_spec.2⟩
      · rintro (h | ⟨e, he | he, hec, hee⟩)
        · exact Or.inl h
        · subst he
          exact absurd hec (by simp [hc])
        · exact Or.inr ⟨e, he, hec, hee⟩

/-- **C3**: the claim says a string-literal key of an attribute access on the
environment mapping, such as `os.environ.get("NAME")`, is matched; the code
comment on `ENV_PATTERNS` promises the same, but the regex
`os\.environ\[?["\']([^"\']+)["\']\]?` requires a quote directly after
`os.environ` or `os.environ[`, so `.get(` makes every pattern fail and the
match set of such a file is empty. -/
theorem C3_environ_get_attribute_never_matches :
    extractVars ("os.environ.get(\"NAME\")".data) = ∅ ∧
    find_env_vars_in_file (.ok ("os.environ.get(\"NAME\")".data)) = ∅ := by
  constructor <;> decide

/-- **C5**: after the scan, the global variable set `all_env_vars` holds a
name exactly when some scanned (candidate) file's match set holds it: it is
the union of the per-file match sets, with no omissions and no extras. -/
theorem C5_global_set_is_union_of_match_sets (root : String) (fs : List FSEntry)
    (v : String) :
    v ∈ allEnvVars root fs ↔
      ∃ e ∈ fs, codeCandidate root e = true ∧ v ∈ find_env_vars_in_file e.content := by
  rw [allEnvVars, allEnvVarsAux_mem]
  simp

/-- **C6**: the cross-reference step partitions the global set: `set_vars`
and `missing` are disjoint, their union is the global set, and membership in
`set_vars` is exact (case-sensitive) key lookup in the environment
snapshot. -/
theorem C6_set_missing_partition (root : String) (fs : List FSEntry)
    (env : List (String × String)) :
    setVars (allEnvVars root fs) env ∪ missingVars (allEnvVars root fs) env =
        allEnvVars root fs ∧
    Disjoint (setVars (allEnvVars root fs) env) (missingVars (allEnvVars root fs) env) ∧
    (∀ v, v ∈ setVars (allEnvVars root fs) env ↔
        v ∈ allEnvVars root fs ∧ ∃ p ∈ env, p.1 = v) := by
  refine ⟨Finset.union_sdiff_of_subset (Finset.filter_subset _ _),
    Finset.disjoint_sdiff, fun v => ?_⟩
  simp only [setVars, Finset.mem_filter, envKeys]
  constructor
  · rintro ⟨hv, hc⟩
    refine ⟨hv, ?_⟩
    have : v ∈ env.map Prod.fst := by
      simpa using hc
    obtain ⟨p, hp, hpv⟩ := List.mem_map.mp this
    exact ⟨p, hp, hpv⟩
  · rintro ⟨hv, p, hp, hpv⟩
    refine ⟨hv, ?_⟩
    simp only [List.contains_eq_any_beq, List.any_eq_true]
    exact ⟨p.1, List.mem_map.mpr ⟨p, hp, rfl⟩, by simp [hpv]⟩

/-- **C7**: no directory argument prints the usage text and exits 1; a
non-existent target prints the diagnostic, produces no report and exits 1;
otherwise the scan report is printed and the process exits 0. -/
theorem C7_exit_codes (argv : List String) (dirExists : String → Bool)
    (fs : List FSEntry) (env : List (String × String)) :
    (argv.length < 2 →
      mainRun argv dirExists fs env = (1, [usage1, usage2])) ∧
    (2 ≤ argv.length → dirExists (argv.getD 1 "") = false →
      mainRun argv dirExists fs env = (1, [notFoundMsg (argv.getD 1 "")])) ∧
    (2 ≤ argv.length → dirExists (argv.getD 1 "") = true →
      mainRun argv dirExists fs env = (0, outputLines (argv.getD 1 "") fs env)) := by
  refine ⟨fun h => ?_, fun h hex => ?_, fun h hex => ?_⟩
  · simp [mainRun, h]
  · unfold mainRun
    rw [if_neg (Nat.not_lt.mpr h)]
    simp only [List.getD_eq_getElem?_getD] at hex
    simp [hex]
  · unfold mainRun
    rw [if_neg (Nat.not_lt.mpr h)]
    simp only [List.getD_eq_getElem?_getD] at hex
    simp [hex]

theorem C7_exit_codes_witness :
    mainRun ["prog"] (fun _ => true) [] [] = (1, [usage1, usage2]) ∧
    mainRun ["prog", "gone"] (fun _ => false) [] [] = (1, [notFoundMsg "gone"]) ∧
    mainRun ["prog", "here"] (fun _ => true) [] [] = (0, outputLines "here" [] []) :=
  ⟨(C7_exit_codes ["prog"] (fun _ => true) [] []).1 (by decide),
   (C7_exit_codes ["prog", "gone"] (fun _ => false) [] []).2.1 (by decide) rfl,
   (C7_exit_codes ["prog", "here"] (fun _ => true) [] []).2.2 (by decide) rfl⟩

theorem reportEntries_append (root : String) (fs1 fs2 : List FSEntry) :
    reportEntries root (fs1 ++ fs2) = reportEntries root fs1 ++ reportEntries root fs2 := by
  simp [reportEntries, List.filterMap_append]

theorem reportEntries_err_cons (root : String) (e : FSEntry) (fs : List FSEntry)
    (hempty : find_env_vars_in_file e.content = ∅) :
    reportEntries root (e :: fs) = reportEntries root fs := by
  simp only [reportEntries, List.filterMap_cons]
  by_cases hc : codeCandidate root e
  · simp [hc, hempty]
  · simp [hc]

theorem allEnvVars_err_skip (root : String) (fs1 fs2 : List FSEntry) (e : FSEntry)
    (hempty : find_env_vars_in_file e.content = ∅) :
    allEnvVars root (fs1 ++ e :: fs2) = allEnvVars root (fs1 ++ fs2) := by
  ext v
  rw [allEnvVars, allEnvVarsAux_mem, allEnvVars, allEnvVarsAux_mem]
  simp only [Finset.not_mem_empty, false_or]
  constructor
  · rintro ⟨x, hx, hxc, hxv⟩
    rcases List.mem_append.mp hx with h | h
    · exact ⟨x, List.mem_append.mpr (Or.inl h), hxc, hxv⟩
    · rcases List.mem_cons.mp h with h | h
      · subst h
        rw [hempty] at hxv
        exact absurd hxv (Finset.not_mem_empty v)
      · exact ⟨x, List.mem_append.mpr (Or.inr h), hxc, hxv⟩
  · rintro ⟨x, hx, hxc, hxv⟩
    rcases List.mem_append.mp hx with h | h
    · exact ⟨x, List.mem_append.mpr (Or.inl h), hxc, hxv⟩
    · exact ⟨x, List.mem_append.mpr (Or.inr (List.mem_cons_of_mem e h)), hxc, hxv⟩

/-- **C4**: a file whose read raises `UnicodeDecodeError` or
`PermissionError` gets exactly the empty match set, and the scan of the
remaining files — and hence the whole report — is unchanged by its
presence; no error escapes `find_env_vars_in_file` for such files. -/
theorem C4_unreadable_file_swallowed (root : String) (env : List (String × String))
    (fs1 fs2 : List FSEntry) (e : FSEntry)
    (herr : e.content = .unicodeDecodeError ∨ e.content = .permissionError) :
    find_env_vars_in_file e.content = ∅ ∧
    outputLines root (fs1 ++ e :: fs2) env = outputLines root (fs1 ++ fs2) env := by
  have hempty : find_env_vars_in_file e.content = ∅ := by
    rcases herr with h | h <;> rw [h] <;> rfl
  refine ⟨hempty, ?_⟩
  have hrep : reportEntries root (fs1 ++ e :: fs2) = reportEntries root (fs1 ++ fs2) := by
    rw [reportEntries_append, reportEntries_append, reportEntries_err_cons root e fs2 hempty]
  rw [outputLines, outputLines, hrep, allEnvVars_err_skip root fs1 fs2 e hempty]

theorem C4_unreadable_file_swallowed_witness :
    find_env_vars_in_file (FSEntry.mk ["a.py"] true .unicodeDecodeError).content = ∅ ∧
    outputLines "r" ([] ++ FSEntry.mk ["a.py"] true .unicodeDecodeError :: []) [] =
      outputLines "r" ([] ++ []) [] :=
  C4_unreadable_file_swallowed "r" [] [] [] (FSEntry.mk ["a.py"] true .unicodeDecodeError)
    (Or.inl rfl)

theorem getLastD_irrel {α : Type} {l : List α} (h : l ≠ []) (d1 d2 : α) :
    l.getLastD d1 = l.getLastD d2 := by
  cases l with
  | nil => exact absurd rfl h
  | cons a t => rw [List.getLastD_cons, List.getLastD_cons]

theorem joinComps_getLast_suffix (comps : List String) (h : comps ≠ []) :
    (comps.getLastD "").data <:+ joinComps comps := by
  induction comps with
  | nil => exact absurd rfl h
  | cons x xs ih =>
    cases xs with
    | nil => simp [joinComps, List.getLastD]
    | cons y rest =>
      have hne : y :: rest ≠ [] := by simp
      have hsuf := ih hne
      have heq : ((x :: y :: rest).getLastD "") = ((y :: rest).getLastD "") := by
        rw [List.getLastD_cons]
        exact getLastD_irrel hne x ""
      rw [heq]
      calc ((y :: rest).getLastD "").data
          <:+ joinComps (y :: rest) := hsuf
        _ <:+ joinComps (x :: y :: rest) := by
            rw [show joinComps (x :: y :: rest) = x.data ++ '/' :: joinComps (y :: rest) from rfl]
            exact (List.suffix_append ['/'] _).trans
              (List.suffix_append x.data ('/' :: joinComps (y :: rest)))

theorem pySuffix_isSuffix (name : List Char) (s : List Char) (h : pySuffix name = s)
    (hne : s ≠ []) : s <:+ name := by
  rw [pySuffix] at h
  split at h
  · exact absurd h.symm hne
  · split at h
    · rw [← h]
      exact List.drop_suffix _ _
    · exact absurd h.symm hne

theorem env_infix_of_dotenv_suffix (root : String) (e : FSEntry)
    (h : fileSuffix e = ".env".data) : "env".data <:+: pathChars root e := by
  have hcomps : e.comps ≠ [] := by
    intro hc
    rw [fileSuffix, lastName, hc] at h
    exact absurd h (by decide)
  have hsufname : ".env".data <:+ (lastName e).data :=
    pySuffix_isSuffix _ _ h (by decide)
  have henv : "env".data <:+ (lastName e).data := by
    refine List.IsSuffix.trans ?_ hsufname
    exact ⟨['.'], rfl⟩
  have hlast : (lastName e).data <:+ joinComps e.comps :=
    joinComps_getLast_suffix e.comps hcomps
  have hrel : joinComps e.comps <:+ pathChars root e := by
    rw [pathChars, relChars]
    exact (List.suffix_append ['/'] _).trans
      (List.suffix_append root.data ('/' :: joinComps e.comps))
  exact ((henv.trans hlast).trans hrel).isInfix

/-- **C2**: any file whose full path string (root included) contains the
substring `env` is excluded from the scan regardless of its contents,
because `env` is in `skip_dirs` and the skip test is a substring test on
`str(filepath)`; in particular a `.env` suffix puts `env` in the file's own
name so the `.env` allow-list entry can never contribute a file, and a root
whose path contains `env` yields an empty report for every tree. -/
theorem C2_env_substring_always_excluded :
    (∀ (root : String) (e : FSEntry), "env".data <:+: pathChars root e →
        codeCandidate root e = false) ∧
    (∀ (root : String) (e : FSEntry), fileSuffix e = ".env".data →
        "env".data <:+: pathChars root e ∧ codeCandidate root e = false) ∧
    (∀ (root : String) (fs : List FSEntry), "env".data <:+: root.data →
        reportEntries root fs = [] ∧ allEnvVars root fs = ∅) := by
  have parta : ∀ (root : String) (e : FSEntry), "env".data <:+: pathChars root e →
      codeCandidate root e = false := by
    intro root e h
    have hany : skipDirs.any (fun s => decide (s.data <:+: pathChars root e)) = true := by
      rw [List.any_eq_true]
      exact ⟨"env", by simp [skipDirs], by simpa using h⟩
    simp [codeCandidate, hany]
  have partroot : ∀ (root : String) (e : FSEntry), "env".data <:+: root.data →
      "env".data <:+: pathChars root e := by
    intro root e h
    refine h.trans ?_
    rw [pathChars]
    exact (List.prefix_append root.data _).isInfix
  refine ⟨parta, fun root e h => ?_, fun root fs h => ?_⟩
  · have hinf := env_infix_of_dotenv_suffix root e h
    exact ⟨hinf, parta root e hinf⟩
  · constructor
    · rw [reportEntries, List.filterMap_eq_nil_iff]
      intro e he
      rw [parta root e (partroot root e h)]
      simp
    · rw [Finset.eq_empty_iff_forall_not_mem]
      intro v hv
      rw [allEnvVars, allEnvVarsAux_mem] at hv
      simp only [Finset.not_mem_empty, false_or] at hv
      obtain ⟨e, -, hc, -⟩ := hv
      rw [parta root e (partroot root e h)] at hc
      exact absurd hc (by simp)

theorem C2_env_substring_always_excluded_witness :
    codeCandidate "r" (FSEntry.mk ["env"] true (.ok [])) = false ∧
    ("env".data <:+: pathChars "r" (FSEntry.mk ["a.env"] true (.ok [])) ∧
      codeCandidate "r" (FSEntry.mk ["a.env"] true (.ok [])) = false) ∧
    (reportEntries "envdir" [FSEntry.mk ["a.py"] true (.ok ("$X ".data))] = [] ∧
      allEnvVars "envdir" [FSEntry.mk ["a.py"] true (.ok ("$X ".data))] = ∅) :=
  ⟨C2_env_substring_always_excluded.1 "r" (FSEntry.mk ["env"] true (.ok [])) (by decide),
   C2_env_substring_always_excluded.2.1 "r" (FSEntry.mk ["a.env"] true (.ok [])) (by decide),
   C2_env_substring_always_excluded.2.2 "envdir" [FSEntry.mk ["a.py"] true (.ok ("$X ".data))]
     (by decide)⟩

/-- The candidate predicate exactly as the claim words it: a regular file
whose path COMPONENTS do not match (equal) any entry of the exclusion set,
and whose extension is in the allow-list. -/
def specCandidate (e : FSEntry) : Bool :=
  e.isFile && !(e.comps.any (fun comp => skipDirs.contains comp)) &&
    allowedSuffixes.any (fun s => fileSuffix e == s.data)

/-- The per-file mapping keys as the claim describes them: the spec-side
candidates with a non-empty match set. -/
def specKeys (fs : List FSEntry) : List String :=
  fs.filterMap (fun e =>
    if specCandidate e = true ∧ find_env_vars_in_file e.content ≠ ∅
    then some (relString e) else none)

/-- **C1** (counterexample): under root `proj`, the file `environment.py`
containing `os.getenv("FOO")` has no path component equal to an exclusion
entry, an allowed extension and a non-empty match set, so the claim makes it
a key of the per-file mapping; the code excludes it, because its full path
string `proj/environment.py` contains the substring `env`, and produces no
key at all. -/
theorem C1_components_counterexample :
    reportKeys "proj" [FSEntry.mk ["environment.py"] true (.ok ("os.getenv(\"FOO\")".data))]
        = [] ∧
    specKeys [FSEntry.mk ["environment.py"] true (.ok ("os.getenv(\"FOO\")".data))]
        = ["environment.py"] ∧
    reportKeys "proj" [FSEntry.mk ["environment.py"] true (.ok ("os.getenv(\"FOO\")".data))]
        ≠ specKeys [FSEntry.mk ["environment.py"] true (.ok ("os.getenv(\"FOO\")".data))] := by
  refine ⟨by decide, by decide, by decide⟩

/-- **C1** (amended): the keys of the per-file mapping are exactly the
regular files under the root whose FULL path string (root argument
included) contains no entry of the exclusion set as a substring, whose
extension is in the allow-list, and whose match set is non-empty. -/
theorem C1_report_keys_characterization (root : String) (fs : List FSEntry) (k : String) :
    k ∈ reportKeys root fs ↔
      ∃ e ∈ fs, relString e = k ∧ codeCandidate root e = true ∧
        find_env_vars_in_file e.content ≠ ∅ := by
  rw [reportKeys, reportEntries]
  rw [List.map_filterMap]
  rw [List.mem_filterMap]
  constructor
  · rintro ⟨e, he, hfe⟩
    by_cases hc : codeCandidate root e
    · by_cases hf : find_env_vars_in_file e.content = ∅
      · rw [if_pos hc] at hfe
        simp only [hf, if_pos rfl] at hfe
        exact absurd hfe (by simp)
      · rw [if_pos hc] at hfe
        simp only [if_neg hf] at hfe
        simp at hfe
        exact ⟨e, he, hfe, hc, hf⟩
    · rw [if_neg hc] at hfe
      exact absurd hfe (by simp)
  · rintro ⟨e, he, hrel, hc, hf⟩
    refine ⟨e, he, ?_⟩
    rw [if_pos hc]
    simp only [if_neg hf]
    simp [hrel]

/-- The content of a file contains the literal text `p`. -/
def containsStr (p : String) (l : List Char) : Prop := ∃ a b, l = a ++ p.data ++ b

theorem matchShell_on_braced_BAR (b : List Char) :
    matchShell ('$' :: '{' :: 'B' :: 'A' :: 'R' :: '}' :: b) = some ("BAR", b) := by
  have hB : identStart 'B' = true := by decide
  have hA : identChar 'A' = true := by decide
  have hR : identChar 'R' = true := by decide
  have hBr : identChar '}' = false := by decide
  simp [matchShell, hB, hA, hR, hBr, List.takeWhile_cons, List.dropWhile_cons]

theorem toFinset_all_eq {l : List String} {x : String} (hne : l ≠ [])
    (hall : ∀ n ∈ l, n = x) : l.toFinset = {x} := by
  ext y
  simp only [List.mem_toFinset, Finset.mem_singleton]
  constructor
  · exact fun hy => hall y hy
  · intro hy
    subst hy
    cases l with
    | nil => exact absurd rfl hne
    | cons a t => exact (hall a (List.mem_cons_self a t)) ▸ List.mem_cons_self a t

/-- **C8**: when a file contains both `${BAR}` and `$BAR` and no pattern
produces any other match (the accessor-call, mapping-subscript and
namespaced-property patterns match nothing, and every shell-interpolation
match captures the name `BAR`), the match set is exactly `{"BAR"}`: the
occurrences are deduplicated into a single entry. -/
theorem C8_shell_matches_deduplicated (content : List Char)
    (h1 : containsStr "${BAR}" content) (_h2 : containsStr "$BAR" content)
    (hg : findAll matchGetenv content = []) (he : findAll matchEnviron content = [])
    (hn : findAll matchNode content = [])
    (hshell : ∀ n ∈ findAll matchShell content, n = "BAR") :
    extractVars content = {"BAR"} := by
  have hnn : findAll matchShell content ≠ [] := by
    obtain ⟨a, b, hab⟩ := h1
    refine findAll_ne_nil matchShell_consumes (l := content)
      (s := '$' :: '{' :: 'B' :: 'A' :: 'R' :: '}' :: b) ⟨a, ?_⟩ ?_
    · rw [hab]
      have : "${BAR}".data = ['$', '{', 'B', 'A', 'R', '}'] := by decide
      rw [this, List.append_assoc]
      rfl
    · rw [matchShell_on_braced_BAR]
      simp
  rw [extractVars, hg, he, hn]
  simp only [List.nil_append, List.append_nil]
  exact toFinset_all_eq hnn hshell

theorem C8_shell_matches_deduplicated_witness :
    extractVars ("${BAR} $BAR".data) = {"BAR"} :=
  C8_shell_matches_deduplicated ("${BAR} $BAR".data)
    ⟨[], " $BAR".data, by decide⟩
    ⟨"${BAR} ".data, [], by decide⟩
    (by decide) (by decide) (by decide) (by decide)

theorem allEnvVars_perm (root : String) {fs1 fs2 : List FSEntry} (h : fs1.Perm fs2) :
    allEnvVars root fs1 = allEnvVars root fs2 := by
  ext v
  rw [allEnvVars, allEnvVarsAux_mem, allEnvVars, allEnvVarsAux_mem]
  simp only [Finset.not_mem_empty, false_or]
  constructor
  · rintro ⟨e, he, hp⟩
    exact ⟨e, h.mem_iff.mp he, hp⟩
  · rintro ⟨e, he, hp⟩
    exact ⟨e, h.mem_iff.mpr he, hp⟩

theorem reportKeys_cons (root : String) (e : FSEntry) (rest : List FSEntry) :
    reportKeys root (e :: rest) =
      (if codeCandidate root e ∧ find_env_vars_in_file e.content ≠ ∅
        then [relString e] else []) ++ reportKeys root rest := by
  simp only [reportKeys, reportEntries, List.filterMap_cons]
  by_cases hc : codeCandidate root e
  · by_cases hf : find_env_vars_in_file e.content = ∅
    · simp [hc, hf]
    · simp [hc, hf]
  · simp [hc]

theorem reportKeys_sublist (root : String) (fs : List FSEntry) :
    (reportKeys root fs).Sublist (fs.map relString) := by
  induction fs with
  | nil => simp [reportKeys, reportEntries]
  | cons e rest ih =>
    rw [reportKeys_cons, List.map_cons]
    split
    · simpa using List.Sublist.cons₂ (relString e) ih
    · exact List.Sublist.trans (by simp) (List.Sublist.cons (relString e) ih)

theorem pairLe_trans (a b c : String × List String)
    (hab : pairLe a b = true) (hbc : pairLe b c = true) : pairLe a c = true := by
  simp only [pairLe, decide_eq_true_eq] at *
  exact le_trans hab hbc

theorem pairLe_total (a b : String × List String) : (pairLe a b || pairLe b a) = true := by
  simp only [pairLe, Bool.or_eq_true, decide_eq_true_eq]
  exact le_total a.1 b.1

theorem sortedEntries_eq_of_perm {l1 l2 : List (String × List String)}
    (hperm : l1.Perm l2) (hnodup : (l1.map Prod.fst).Nodup) :
    sortedEntries l1 = sortedEntries l2 := by
  have hp1 : (sortedEntries l1).Perm l1 := List.mergeSort_perm l1 pairLe
  have hp2 : (sortedEntries l2).Perm l2 := List.mergeSort_perm l2 pairLe
  have hp : (sortedEntries l1).Perm (sortedEntries l2) := (hp1.trans hperm).trans hp2.symm
  have hs1 : List.Pairwise (fun a b => pairLe a b = true) (sortedEntries l1) :=
    List.sorted_mergeSort pairLe_trans pairLe_total l1
  have hs2 : List.Pairwise (fun a b => pairLe a b = true) (sortedEntries l2) :=
    List.sorted_mergeSort pairLe_trans pairLe_total l2
  have hn1 : ((sortedEntries l1).map Prod.fst).Nodup :=
    ((hp1.map Prod.fst).nodup_iff).mpr hnodup
  have hn2 : ((sortedEntries l2).map Prod.fst).Nodup := by
    refine ((hp2.map Prod.fst).nodup_iff).mpr ?_
    exact ((hperm.map Prod.fst).nodup_iff).mp hnodup
  have hn1' : List.Pairwise (fun a b : String × List String => a.1 ≠ b.1) (sortedEntries l1) :=
    List.pairwise_map.mp hn1
  have hn2' : List.Pairwise (fun a b : String × List String => a.1 ≠ b.1) (sortedEntries l2) :=
    List.pairwise_map.mp hn2
  have hst1 : List.Sorted (fun a b : String × List String => a.1 < b.1) (sortedEntries l1) :=
    (hs1.and hn1').imp (fun h =>
      lt_of_le_of_ne (by simpa [pairLe] using h.1) h.2)
  have hst2 : List.Sorted (fun a b : String × List String => a.1 < b.1) (sortedEntries l2) :=
    (hs2.and hn2').imp (fun h =>
      lt_of_le_of_ne (by simpa [pairLe] using h.1) h.2)
  haveI : IsAntisymm (String × List String) (fun a b => a.1 < b.1) :=
    ⟨fun a b h1 h2 => absurd h2 (lt_asymm h1)⟩
  exact List.eq_of_perm_of_sorted hp hst1 hst2

theorem renderOut_congr {e1 e2 : List (String × List String)} {av : Finset String}
    {env : List (String × String)} (hs : sortedEntries e1 = sortedEntries e2)
    (hl : e1.length = e2.length) : renderOut e1 av env = renderOut e2 av env := by
  simp only [renderOut, hs, hl]

/-- **C9**: the printed report is a deterministic function of the directory
contents and the environment: any re-enumeration (permutation) of the same
directory entries — with their distinct relative paths — and the same
environment yields byte-identical output, thanks to the alphabetical
sorting before printing. -/
theorem C9_output_deterministic (root : String) (env : List (String × String))
    (fs1 fs2 : List FSEntry) (hperm : fs1.Perm fs2)
    (hnodup : (fs1.map relString).Nodup) :
    outputLines root fs1 env = outputLines root fs2 env := by
  have hav : allEnvVars root fs1 = allEnvVars root fs2 := allEnvVars_perm root hperm
  have hep : (reportEntries root fs1).Perm (reportEntries root fs2) := hperm.filterMap _
  have hkn : ((reportEntries root fs1).map Prod.fst).Nodup := by
    have hsub : (reportKeys root fs1).Sublist (fs1.map relString) := reportKeys_sublist root fs1
    exact List.Nodup.sublist hsub hnodup
  have hse : sortedEntries (reportEntries root fs1) = sortedEntries (reportEntries root fs2) :=
    sortedEntries_eq_of_perm hep hkn
  rw [outputLines, outputLines, hav]
  exact renderOut_congr hse hep.length_eq

theorem C9_output_deterministic_witness :
    outputLines "r"
        [FSEntry.mk ["a.py"] true (.ok ("$ALPHA ".data)),
         FSEntry.mk ["b.sh"] true (.ok ("${BETA}".data))] [("ALPHA", "1")] =
      outputLines "r"
        [FSEntry.mk ["b.sh"] true (.ok ("${BETA}".data)),
         FSEntry.mk ["a.py"] true (.ok ("$ALPHA ".data))] [("ALPHA", "1")] :=
  C9_output_deterministic "r" [("ALPHA", "1")]
    [FSEntry.mk ["a.py"] true (.ok ("$ALPHA ".data)),
     FSEntry.mk ["b.sh"] true (.ok ("${BETA}".data))]
    [FSEntry.mk ["b.sh"] true (.ok ("${BETA}".data)),
     FSEntry.mk ["a.py"] true (.ok ("$ALPHA ".data))]
    (by decide) (by decide)

/-- The mutable world visible to the process: the files (with their
contents), the process environment, and what has been written to standard
output — the only output destination the program addresses. -/
structure WorldState where
  fs : List FSEntry
  env : List (String × String)
  stdout : List String

/-- `print(line)`: appends one line to standard output. -/
def printL (w : WorldState) (line : String) : WorldState :=
  { w with stdout := w.stdout ++ [line] }

/-- A sequence of `print` calls. -/
def printAll (w : WorldState) (lines : List String) : WorldState :=
  lines.foldl printL w

/-- `open(filepath, 'r', ...)` followed by `.read()` and handle release, as
performed inside `find_env_vars_in_file`: yields the entry's recorded
outcome and leaves the world as it was. -/
def readEntry (w : WorldState) (e : FSEntry) : WorldState × ReadOutcome := (w, e.content)

/-- The scan loop of `main` with the world threaded through every file
read: builds the per-file mapping and the global variable set. -/
def scanLoop (root : String) : List FSEntry → WorldState →
    WorldState × List (String × List String) × Finset String
  | [], w => (w, [], ∅)
  | e :: rest, w =>
    if codeCandidate root e then
      let (w1, outcome) := readEntry w e
      let found := find_env_vars_in_file outcome
      let (w2, entries, glob) := scanLoop root rest w1
      if found = ∅ then (w2, entries, glob)
      else (w2, (relString e, sortedVars found) :: entries, glob ∪ found)
    else scanLoop root rest w

/-- `main` with its effects explicit: returns the final world and the exit
status. -/
def mainS (argv : List String) (dirExists : String → Bool) (w : WorldState) :
    WorldState × Nat :=
  if argv.length < 2 then (printAll w [usage1, usage2], 1)
  else
    let root := argv.getD 1 ""
    if !(dirExists root) then (printL w (notFoundMsg root), 1)
    else
      let (w1, entries, allVars) := scanLoop root w.fs w
      (printAll w1 (renderOut entries allVars w1.env), 0)

theorem printAll_frame (lines : List String) (w : WorldState) :
    (printAll w lines).fs = w.fs ∧ (printAll w lines).env = w.env ∧
      (printAll w lines).stdout = w.stdout ++ lines := by
  induction lines generalizing w with
  | nil => simp [printAll]
  | cons x xs ih =>
    obtain ⟨h1, h2, h3⟩ := ih (printL w x)
    have hc : printAll w (x :: xs) = printAll (printL w x) xs := rfl
    rw [hc]
    refine ⟨h1.trans rfl, h2.trans rfl, ?_⟩
    rw [h3]
    simp [printL]

theorem scanLoop_world (root : String) (fs : List FSEntry) (w : WorldState) :
    (scanLoop root fs w).1 = w := by
  induction fs generalizing w with
  | nil => rfl
  | cons e rest ih =>
    rw [scanLoop]
    by_cases hc : codeCandidate root e
    · simp only [hc, if_true, readEntry]
      cases hsl : scanLoop root rest w with
      | mk w2 p =>
        have hw2 : w2 = w := by
          have := ih w
          rw [hsl] at this
          exact this
        cases p with
        | mk entries glob =>
          by_cases hf : find_env_vars_in_file e.content = ∅ <;> simp [hf, hw2]
    · simp only [hc, if_false]
      exact ih w

/-- **C10**: a run changes no file and does not change the environment
mapping; the only state it touches is standard output, which it only
extends (the world after `main` agrees with the initial world on the files
and the environment, and its stdout is the initial stdout plus the printed
report). -/
theorem C10_only_stdout_changes (argv : List String) (dirExists : String → Bool)
    (w : WorldState) :
    (mainS argv dirExists w).1.fs = w.fs ∧
    (mainS argv dirExists w).1.env = w.env ∧
    ∃ out, (mainS argv dirExists w).1.stdout = w.stdout ++ out := by
  rw [mainS]
  split
  · obtain ⟨h1, h2, h3⟩ := printAll_frame [usage1, usage2] w
    exact ⟨h1, h2, ⟨_, h3⟩⟩
  · dsimp only
    split
    · exact ⟨rfl, rfl, ⟨_, rfl⟩⟩
    · cases hsl : scanLoop (argv.getD 1 "") w.fs w with
      | mk w1 p =>
        cases p with
        | mk entries allVars =>
          have hw1 : w1 = w := by
            have := scanLoop_world (argv.getD 1 "") w.fs w
            rw [hsl] at this
            exact this
          subst hw1
          obtain ⟨h1, h2, h3⟩ := printAll_frame (renderOut entries allVars w1.env) w1
          simp only [hsl]
          exact ⟨h1, h2, ⟨_, h3⟩⟩
